import Mathlib

/-!
# Verification of the offshore-detector risk-signal engine

Shallow embedding of the local risk-signal engine of the
`offshore_detector` repository, together with proofs of the behavioural
properties stated in its specification.

The embedding follows the Python sources:

* `fuzzy_matcher.py`  — text normalisation and multi-strategy fuzzy matching;
* `swift_handler.py` / `analyzer.py` — SWIFT/BIC country extraction,
  confidence aggregation, scenario classification and the per-row pipeline;
* `web_research.py`  — geocoding resolver: `functools.lru_cache`-backed
  cache, `tenacity` retry wrapper, and the rate limiter.

Python strings are modelled as lists of characters (`Str`), float
arithmetic as exact rational arithmetic (`ℚ`), Python `None` as `Option`.
-/

namespace OffshoreDetector

set_option maxRecDepth 16000

/-- Python strings, modelled as lists of characters. -/
abbrev Str := List Char

/-- A Python value that may or may not be a string: several entry points of
the source accept arbitrary values and guard with `isinstance(x, str)`.
`nonstr` stands for every non-string value (numbers, `None`, `NaN`, ...). -/
inductive PyVal where
  | str (s : Str)
  | nonstr
deriving DecidableEq

/-! ## Normalizer (`fuzzy_matcher.normalize_text`)

The Python code lowercases (`str.lower`), strips every character that is
not a word character or whitespace (`re.sub(r'[^\w\s]', '', ·)`), collapses
whitespace runs (`re.sub(r'\s+', ' ', ·)`) and trims (`str.strip`).
We model the character classes over the alphabet actually used by the
program (ASCII plus the Cyrillic block 0x400–0x4FF). -/

/-- The lowercasing table of `str.lower` restricted to the modelled
alphabet: ASCII `A`–`Z` and the Cyrillic capitals `А`–`Я` and `Ё`. -/
def LOWER_MAP : List (Char × Char) :=
  [('A', 'a'), ('B', 'b'), ('C', 'c'), ('D', 'd'), ('E', 'e'), ('F', 'f'),
   ('G', 'g'), ('H', 'h'), ('I', 'i'), ('J', 'j'), ('K', 'k'), ('L', 'l'),
   ('M', 'm'), ('N', 'n'), ('O', 'o'), ('P', 'p'), ('Q', 'q'), ('R', 'r'),
   ('S', 's'), ('T', 't'), ('U', 'u'), ('V', 'v'), ('W', 'w'), ('X', 'x'),
   ('Y', 'y'), ('Z', 'z'),
   ('А', 'а'), ('Б', 'б'), ('В', 'в'), ('Г', 'г'), ('Д', 'д'), ('Е', 'е'),
   ('Ж', 'ж'), ('З', 'з'), ('И', 'и'), ('Й', 'й'), ('К', 'к'), ('Л', 'л'),
   ('М', 'м'), ('Н', 'н'), ('О', 'о'), ('П', 'п'), ('Р', 'р'), ('С', 'с'),
   ('Т', 'т'), ('У', 'у'), ('Ф', 'ф'), ('Х', 'х'), ('Ц', 'ц'), ('Ч', 'ч'),
   ('Ш', 'ш'), ('Щ', 'щ'), ('Ъ', 'ъ'), ('Ы', 'ы'), ('Ь', 'ь'), ('Э', 'э'),
   ('Ю', 'ю'), ('Я', 'я'), ('Ё', 'ё')]

/-- `str.lower`, character-wise, over the modelled alphabet. -/
def pyLower (c : Char) : Char := (LOWER_MAP.lookup c).getD c

/-- Python `\s` (whitespace class): space, tab, newline, carriage return,
vertical tab, form feed. -/
def isSpaceChar (c : Char) : Bool :=
  c = ' ' || c = '\t' || c = '\n' || c = '\r' || c = '\x0b' || c = '\x0c'

/-- Python `\w` (word-character class) over the modelled alphabet:
ASCII alphanumerics, underscore, and the Cyrillic block. -/
def isWordChar (c : Char) : Bool :=
  c.isAlphanum || c = '_' || (0x400 ≤ c.toNat && c.toNat ≤ 0x4FF)

/-- One character survives `re.sub(r'[^\w\s]', '', ·)` iff it is a word
character or whitespace. -/
def isKeptChar (c : Char) : Bool := isWordChar c || isSpaceChar c

/-- `re.sub(r'\s+', ' ', ·)`: replace every maximal run of whitespace by a
single space.  The boolean argument records whether the previously read
character belonged to a whitespace run (whose single space has already
been emitted). -/
def collapseWS : Bool → Str → Str
  | _, [] => []
  | true, c :: cs =>
    if isSpaceChar c then collapseWS true cs else c :: collapseWS false cs
  | false, c :: cs =>
    if isSpaceChar c then ' ' :: collapseWS true cs else c :: collapseWS false cs

/-- `str.strip`: drop leading and trailing whitespace. -/
def stripWS (l : Str) : Str :=
  ((l.dropWhile isSpaceChar).reverse.dropWhile isSpaceChar).reverse

/-- `fuzzy_matcher.normalize_text` on an actual string: lowercase, remove
non-word/non-space characters, collapse whitespace runs, strip. -/
def normalize_text (l : Str) : Str :=
  stripWS (collapseWS false ((l.map pyLower).filter isKeptChar))

/-- `fuzzy_matcher.normalize_text` on an arbitrary value: non-string input
yields the empty string (`if not isinstance(text, str): return ""`). -/
def normalizeVal : PyVal → Str
  | .str s => normalize_text s
  | .nonstr => []

/-! ## Tokenisation and stopwords (`fuzzy_matcher.py`) -/

/-- `str.split()` with no argument: split on whitespace runs, discarding
empty pieces.  The accumulator holds the current word, reversed. -/
def wordsAux : Str → Str → List Str
  | [], acc => if acc.isEmpty then [] else [acc.reverse]
  | c :: cs, acc =>
    if isSpaceChar c then
      if acc.isEmpty then wordsAux cs [] else acc.reverse :: wordsAux cs []
    else wordsAux cs (c :: acc)

/-- Python `text.split()`. -/
def pySplit (l : Str) : List Str := wordsAux l []

/-- `fuzzy_matcher.STOPWORDS`. -/
def STOPWORDS : List Str :=
  ["and".data, "the".data, "of".data, "company".data, "co".data, "ltd".data,
   "limited".data, "bank".data, "trust".data, "inc".data, "corp".data,
   "saint".data, "st".data, "islands".data, "island".data, "llc".data,
   "plc".data, "spa".data, "pt".data, "a".data, "an".data, "hk".data,
   "uae".data, "u.a.e".data, "ua".data, "us".data, "usa".data]

/-- The token filter applied to both text and target in `fuzzy_match`:
`[t for t in s.split() if t not in STOPWORDS and len(t) >= 3]`. -/
def significantTokens (l : Str) : List Str :=
  (pySplit l).filter (fun t => !STOPWORDS.contains t && 3 ≤ t.length)

/-! ## Levenshtein distance

The Python code calls `Levenshtein.distance`; we embed the textbook
dynamic-programming algorithm (row-by-row over the first string). -/

/-- One cell-by-cell pass of the DP row update.  `diag` is the entry one up
and one left, `left` the entry just computed, `row` the remaining old row. -/
def levStepGo (ca : Char) : Str → Nat → Nat → List Nat → List Nat
  | [], _, _, _ => []
  | _ :: _, _, _, [] => []
  | cb :: bs, diag, left, up :: rest =>
    let cost := if ca = cb then 0 else 1
    let v := Nat.min (Nat.min (up + 1) (left + 1)) (diag + cost)
    v :: levStepGo ca bs up v rest

/-- Update a full DP row for one character of the first string. -/
def levStep (ca : Char) (b : Str) (row : List Nat) : List Nat :=
  match row with
  | [] => []
  | r0 :: rest => (r0 + 1) :: levStepGo ca b r0 (r0 + 1) rest

/-- `Levenshtein.distance`: minimum number of single-character edits. -/
def levenshtein (a b : Str) : Nat :=
  (a.foldl (fun row ca => levStep ca b row) (List.range (b.length + 1))).getLastD 0

/-! ## Fuzzy matcher (`fuzzy_matcher.fuzzy_match`) -/

/-- A match candidate: the original target string and its similarity.
Similarities (Python floats) are modelled as exact rationals. -/
structure Candidate where
  matched : Str
  similarity : ℚ
deriving DecidableEq

/-- Best similarity of one target token against any text token
(strategy 4 inner loop: starts at `0`, keeps the maximum). -/
def tokenBestSim (tarTok : Str) (textTokens : List Str) : ℚ :=
  textTokens.foldl
    (fun best txtTok =>
      let m := Nat.max txtTok.length tarTok.length
      if m = 0 then best
      else max best (1 - (levenshtein txtTok tarTok : ℚ) / (m : ℚ)))
    0

/-- The per-target strategy cascade of `fuzzy_match`; returns the candidate
this target contributes, if any.  Strategies, first success wins:
1. exact substring of the whole normalised target (needs ≥ 1 significant
   token), similarity `1.0`;
2. token-level exact overlap (`≥ 1` hit for single-token targets, `≥ 2`
   distinct hits for multi-token ones), similarity `0.95`;
3. full-string Levenshtein similarity when either normalised string is
   shorter than 20 characters, accepted at `threshold`;
4. token-wise Levenshtein for long strings: enough strong tokens, reported
   similarity is the mean of per-token best similarities. -/
def matchTarget (normText : Str) (textTokens : List Str) (threshold : ℚ)
    (target : Str) : Option Candidate :=
  let normTarget := normalize_text target
  if normTarget = [] then none
  else
    let targetTokens := significantTokens normTarget
    if normTarget <:+: normText ∧ 1 ≤ targetTokens.length then
      some ⟨target, 1⟩
    else
      let hits := (targetTokens.dedup.filter (fun t => t ∈ textTokens)).length
      if targetTokens ≠ [] ∧
          ((targetTokens.length = 1 ∧ 1 ≤ hits) ∨
            (1 < targetTokens.length ∧ 2 ≤ hits)) then
        some ⟨target, 95/100⟩
      else if normText.length < 20 ∨ normTarget.length < 20 then
        let maxLen := Nat.max normText.length normTarget.length
        if maxLen = 0 then none
        else
          let sim : ℚ := 1 - (levenshtein normText normTarget : ℚ) / (maxLen : ℚ)
          if threshold ≤ sim then some ⟨target, sim⟩ else none
      else
        if textTokens = [] ∨ targetTokens = [] then none
        else
          let sims := targetTokens.dedup.map
            (fun t => tokenBestSim t textTokens.dedup)
          let strongHits := (sims.filter (fun s => threshold ≤ s)).length
          if (targetTokens.length = 1 ∧ 1 ≤ strongHits) ∨
              (1 < targetTokens.length ∧ 2 ≤ strongHits) then
            some ⟨target,
              if sims = [] then threshold else sims.sum / (sims.length : ℚ)⟩
          else none

/-- The candidate list accumulated by the `for target in targets` loop of
`fuzzy_match`, before deduplication, sorting and truncation. -/
def fuzzyCandidates (text : Str) (targets : List Str) (threshold : ℚ) :
    List Candidate :=
  targets.filterMap
    (matchTarget (normalize_text text) (significantTokens (normalize_text text))
      threshold)

/-- `{m['match']: m for m in matches}` as list surgery: replace the value
of an existing key in place, otherwise append at the end (Python dicts keep
first-insertion key order and the last value written for a key). -/
def upsert (c : Candidate) : List Candidate → List Candidate
  | [] => [c]
  | d :: ds => if d.matched = c.matched then c :: ds else d :: upsert c ds

/-- Deduplicate candidates by matched target, Python-dict style. -/
def dictDedup (l : List Candidate) : List Candidate :=
  l.foldl (fun acc c => upsert c acc) []

/-- The comparison used by `sorted(..., key=lambda x: x['similarity'],
reverse=True)`: descending by similarity. -/
def candLE (a b : Candidate) : Bool := decide (b.similarity ≤ a.similarity)

/-- `fuzzy_matcher.fuzzy_match` (the Python default threshold is `0.8`):
empty normalised text short-circuits to `[]`; otherwise scan all targets,
deduplicate by matched target, sort by non-increasing similarity, keep 5. -/
def fuzzy_match (text : Str) (targets : List Str) (threshold : ℚ) :
    List Candidate :=
  if normalize_text text = [] then []
  else ((dictDedup (fuzzyCandidates text targets threshold)).mergeSort candLE).take 5

/-! ## Properties of the Normalizer (claim C8) -/

/-- `List.lookup` only returns pairs of the list. -/
theorem lookup_mem {k : Char} {v : Char} :
    ∀ {l : List (Char × Char)}, l.lookup k = some v → (k, v) ∈ l := by
  intro l
  induction l with
  | nil => intro h; simp [List.lookup] at h
  | cons p ps ih =>
    intro h
    rw [List.lookup] at h
    by_cases hk : k == p.1
    · simp only [hk] at h
      have h1 : k = p.1 := eq_of_beq hk
      have h2 : (k, v) = p := by
        rcases p with ⟨p1, p2⟩
        simp only [Option.some_inj] at h
        simp [h1, h]
      rw [h2]
      exact List.mem_cons_self _ _
    · simp only [Bool.not_eq_true] at hk
      simp only [hk] at h
      exact List.mem_cons_of_mem _ (ih h)

/-- No value of the lowercasing table is itself a key of the table. -/
theorem lower_map_values_not_keys :
    ∀ p ∈ LOWER_MAP, LOWER_MAP.lookup p.2 = none := by decide

/-- Character-wise lowercasing is idempotent. -/
theorem pyLower_pyLower (c : Char) : pyLower (pyLower c) = pyLower c := by
  unfold pyLower
  cases h : LOWER_MAP.lookup c with
  | none => simp [h]
  | some d =>
    simp only [h, Option.getD_some]
    have hmem : (c, d) ∈ LOWER_MAP := lookup_mem h
    have := lower_map_values_not_keys (c, d) hmem
    simp [this]

/-- Membership in the collapsed string: every character is either the
space the collapse emits or a non-whitespace character of the input. -/
theorem mem_collapseWS {c : Char} :
    ∀ {l : Str} {b : Bool}, c ∈ collapseWS b l →
      c = ' ' ∨ (c ∈ l ∧ isSpaceChar c = false) := by
  intro l
  induction l with
  | nil => intro b h; cases b <;> simp [collapseWS] at h
  | cons d ds ih =>
    intro b h
    have step : ∀ h1 : c ∈ collapseWS false ds ∨ c ∈ collapseWS true ds,
        c = ' ' ∨ (c ∈ d :: ds ∧ isSpaceChar c = false) := by
      intro h1
      rcases h1 with h1 | h1 <;>
        rcases ih h1 with h2 | ⟨h2, h3⟩ <;>
          first
            | exact Or.inl h2
            | exact Or.inr ⟨List.mem_cons_of_mem _ h2, h3⟩
    by_cases hd : isSpaceChar d
    · cases b with
      | true =>
        rw [collapseWS, if_pos hd] at h
        exact step (Or.inr h)
      | false =>
        rw [collapseWS, if_pos hd] at h
        rcases List.mem_cons.1 h with h1 | h1
        · exact Or.inl h1
        · exact step (Or.inr h1)
    · have hd' : isSpaceChar d = false := by simpa using hd
      cases b with
      | true =>
        rw [collapseWS, if_neg hd] at h
        rcases List.mem_cons.1 h with h1 | h1
        · subst h1; exact Or.inr ⟨List.mem_cons_self _ _, hd'⟩
        · exact step (Or.inl h1)
      | false =>
        rw [collapseWS, if_neg hd] at h
        rcases List.mem_cons.1 h with h1 | h1
        · subst h1; exact Or.inr ⟨List.mem_cons_self _ _, hd'⟩
        · exact step (Or.inl h1)

/-- Adjacent characters of a string with no two neighbouring spaces. -/
def NonAdjSpace (a b : Char) : Prop :=
  ¬(isSpaceChar a = true ∧ isSpaceChar b = true)

/-- After a collapse that just consumed whitespace, the output starts with
a non-space character (if it is nonempty). -/
theorem collapseWS_true_head :
    ∀ {l : Str} {c : Char}, (collapseWS true l).head? = some c →
      isSpaceChar c = false := by
  intro l
  induction l with
  | nil => intro c h; simp [collapseWS] at h
  | cons d ds ih =>
    intro c h
    by_cases hd : isSpaceChar d
    · rw [collapseWS, if_pos hd] at h
      exact ih h
    · rw [collapseWS, if_neg hd, List.head?_cons, Option.some_inj] at h
      subst h
      simpa using hd

/-- The collapsed string never contains two adjacent whitespace characters. -/
theorem chain'_collapseWS :
    ∀ {l : Str} {b : Bool}, List.Chain' NonAdjSpace (collapseWS b l) := by
  intro l
  induction l with
  | nil => intro b; cases b <;> simp [collapseWS]
  | cons d ds ih =>
    intro b
    by_cases hd : isSpaceChar d
    · cases b with
      | true => rw [collapseWS, if_pos hd]; exact ih
      | false =>
        rw [collapseWS, if_pos hd]
        refine List.chain'_cons'.2 ⟨?_, ih⟩
        intro y hy
        intro hand
        rw [collapseWS_true_head hy] at hand
        exact Bool.false_ne_true hand.2
    · have step : List.Chain' NonAdjSpace (d :: collapseWS false ds) := by
        refine List.chain'_cons'.2 ⟨?_, ih⟩
        intro y _
        intro hand
        rw [hand.1] at hd
        exact hd rfl
      cases b with
      | true => rw [collapseWS, if_neg hd]; exact step
      | false => rw [collapseWS, if_neg hd]; exact step

/-- When the input starts with a non-space character (or is empty), the
collapse state flag makes no difference. -/
theorem collapseWS_true_eq_false {l : Str}
    (h : ∀ c, l.head? = some c → isSpaceChar c = false) :
    collapseWS true l = collapseWS false l := by
  cases l with
  | nil => rfl
  | cons d ds =>
    have hd : isSpaceChar d = false := h d (by simp)
    rw [collapseWS, collapseWS, if_neg (by simp [hd]), if_neg (by simp [hd])]

/-- Collapsing is the identity on strings whose whitespace characters are
all plain spaces with no two of them adjacent. -/
theorem collapseWS_eq_self :
    ∀ {l : Str}, (∀ c ∈ l, isSpaceChar c = true → c = ' ') →
      List.Chain' NonAdjSpace l → collapseWS false l = l := by
  intro l
  induction l with
  | nil => intro _ _; rfl
  | cons d ds ih =>
    intro hsp hch
    by_cases hd : isSpaceChar d
    · have hd' : d = ' ' := hsp d (List.mem_cons_self _ _) hd
      rw [collapseWS, if_pos hd, hd']
      congr 1
      have hh : ∀ c, ds.head? = some c → isSpaceChar c = false := by
        intro c hc
        have hrel := (List.chain'_cons'.1 hch).1 c hc
        by_contra hb
        exact hrel ⟨hd, by simpa using hb⟩
      rw [collapseWS_true_eq_false hh]
      exact ih (fun c hc h => hsp c (List.mem_cons_of_mem _ hc) h) hch.tail
    · rw [collapseWS, if_neg hd]
      congr 1
      exact ih (fun c hc h => hsp c (List.mem_cons_of_mem _ hc) h) hch.tail

/-- Stripping is a sublist operation. -/
theorem stripWS_sublist (l : Str) : (stripWS l).Sublist l := by
  unfold stripWS
  have h1 : ((l.dropWhile isSpaceChar).reverse.dropWhile isSpaceChar).Sublist
      (l.dropWhile isSpaceChar).reverse := List.dropWhile_sublist _
  have h2 := h1.reverse
  rw [List.reverse_reverse] at h2
  exact h2.trans (List.dropWhile_sublist _)

/-- The head of a `dropWhile` result fails the predicate. -/
theorem head?_dropWhile {p : Char → Bool} :
    ∀ {l : Str} {c : Char}, (l.dropWhile p).head? = some c → p c = false := by
  intro l
  induction l with
  | nil => intro c h; simp [List.dropWhile] at h
  | cons d ds ih =>
    intro c h
    rw [List.dropWhile] at h
    by_cases hd : p d
    · simp only [hd, if_true] at h; exact ih h
    · simp only [hd, if_false] at h
      simp only [List.head?_cons, Option.some_inj] at h
      subst h
      simpa using hd

/-- A nonempty suffix has the same last element as the whole list. -/
theorem getLast?_of_suffix {l₁ l₂ : Str} (h : l₁ <:+ l₂) (hne : l₁ ≠ []) :
    l₁.getLast? = l₂.getLast? := by
  obtain ⟨s, rfl⟩ := h
  rw [List.getLast?_append]
  cases hl : l₁.getLast? with
  | none => exact absurd (List.getLast?_eq_none_iff.1 hl) hne
  | some c => simp

/-- Stripping is the identity when neither end is whitespace. -/
theorem stripWS_eq_self {l : Str}
    (hhead : ∀ c, l.head? = some c → isSpaceChar c = false)
    (hlast : ∀ c, l.getLast? = some c → isSpaceChar c = false) :
    stripWS l = l := by
  unfold stripWS
  have h1 : l.dropWhile isSpaceChar = l := by
    cases l with
    | nil => simp
    | cons d ds =>
      rw [List.dropWhile_cons]
      have := hhead d (by simp)
      simp [this]
  rw [h1]
  have h2 : l.reverse.dropWhile isSpaceChar = l.reverse := by
    cases hr : l.reverse with
    | nil => simp
    | cons d ds =>
      rw [List.dropWhile_cons]
      have hd : l.getLast? = some d := by
        rw [← List.head?_reverse, hr, List.head?_cons]
      have := hlast d hd
      simp [this]
  rw [h2, List.reverse_reverse]

/-- The canonical shape of normalised strings: every character is fixed by
lowercasing and survives the word/space filter, all whitespace is a single
plain space, and the ends are not whitespace. -/
structure Canon (l : Str) : Prop where
  lower_fixed : ∀ c ∈ l, pyLower c = c
  kept : ∀ c ∈ l, isKeptChar c = true
  spaces_plain : ∀ c ∈ l, isSpaceChar c = true → c = ' '
  no_adj : List.Chain' NonAdjSpace l
  head_ok : ∀ c, l.head? = some c → isSpaceChar c = false
  last_ok : ∀ c, l.getLast? = some c → isSpaceChar c = false

/-- `normalize_text` always produces a string in canonical shape. -/
theorem canon_normalize_text (l : Str) : Canon (normalize_text l) := by
  unfold normalize_text
  set f : Str := (l.map pyLower).filter isKeptChar with hf
  set m : Str := collapseWS false f with hm
  have hmem : ∀ c ∈ stripWS m, c = ' ' ∨ (c ∈ f ∧ isSpaceChar c = false) := by
    intro c hc
    exact mem_collapseWS ((stripWS_sublist m).mem hc)
  constructor
  · intro c hc
    rcases hmem c hc with h | ⟨h, _⟩
    · rw [h]; decide
    · rcases List.mem_map.1 (List.mem_of_mem_filter h) with ⟨d, _, rfl⟩
      exact pyLower_pyLower d
  · intro c hc
    rcases hmem c hc with h | ⟨h, _⟩
    · rw [h]; decide
    · exact List.of_mem_filter h
  · intro c hc hsp
    rcases hmem c hc with h | ⟨_, h⟩
    · exact h
    · rw [h] at hsp; exact absurd hsp (by simp)
  · have hc : List.Chain' NonAdjSpace m := chain'_collapseWS
    unfold stripWS
    have h1 : List.Chain' NonAdjSpace (m.dropWhile isSpaceChar) :=
      hc.suffix (List.dropWhile_suffix _)
    have h2 : List.Chain' (flip NonAdjSpace) (m.dropWhile isSpaceChar).reverse :=
      (List.chain'_reverse).2 (by
        have : flip (flip NonAdjSpace) = NonAdjSpace := rfl
        rw [this]; exact h1)
    have h3 : List.Chain' (flip NonAdjSpace)
        ((m.dropWhile isSpaceChar).reverse.dropWhile isSpaceChar) :=
      h2.suffix (List.dropWhile_suffix _)
    exact (List.chain'_reverse).2 h3
  · intro c hc
    unfold stripWS at hc
    rw [List.head?_reverse] at hc
    have hne : (m.dropWhile isSpaceChar).reverse.dropWhile isSpaceChar ≠ [] := by
      intro h
      rw [h] at hc; simp at hc
    have := getLast?_of_suffix (List.dropWhile_suffix isSpaceChar) hne
    rw [this, List.getLast?_reverse] at hc
    exact head?_dropWhile hc
  · intro c hc
    unfold stripWS at hc
    rw [List.getLast?_reverse] at hc
    exact head?_dropWhile hc

/-- `normalize_text` is the identity on canonical strings. -/
theorem normalize_text_eq_self {l : Str} (h : Canon l) : normalize_text l = l := by
  unfold normalize_text
  have h1 : l.map pyLower = l := by
    rw [List.map_congr_left (g := id) (fun c hc => h.lower_fixed c hc)]
    exact List.map_id l
  rw [h1]
  have h2 : l.filter isKeptChar = l := List.filter_eq_self.2 h.kept
  rw [h2]
  have h3 : collapseWS false l = l :=
    collapseWS_eq_self h.spaces_plain h.no_adj
  rw [h3]
  exact stripWS_eq_self h.head_ok h.last_ok

/-- C8. `normalize` is total and idempotent: it is a total function into
strings (a Lean function by construction), non-string input yields the
empty string, and `normalize (normalize x) = normalize x` for every
value `x` — the second pass receives the first pass's output string. -/
theorem normalize_total_idempotent :
    (∀ x : PyVal, normalizeVal (PyVal.str (normalizeVal x)) = normalizeVal x) ∧
    normalizeVal PyVal.nonstr = [] := by
  constructor
  · intro x
    cases x with
    | str s =>
      show normalize_text (normalize_text s) = normalize_text s
      exact normalize_text_eq_self (canon_normalize_text s)
    | nonstr =>
      show normalize_text [] = []
      rfl
  · rfl

/-! ## Shape of the fuzzy matcher's results (claim C7) -/

/-- Keys of `upsert`: replacing in place keeps the key list, appending a
fresh key adds it at the end. -/
theorem map_matched_upsert (c : Candidate) :
    ∀ (l : List Candidate),
      (upsert c l).map Candidate.matched =
        if c.matched ∈ l.map Candidate.matched then l.map Candidate.matched
        else l.map Candidate.matched ++ [c.matched] := by
  intro l
  induction l with
  | nil => simp [upsert]
  | cons d ds ih =>
    rw [upsert]
    by_cases hd : d.matched = c.matched
    · simp [hd]
    · have hne : c.matched ≠ d.matched := fun h => hd h.symm
      by_cases hmem : c.matched ∈ ds.map Candidate.matched
      · simp [hd, ih, hmem, hne]
      · simp [hd, ih, hmem, hne]

/-- `upsert` preserves distinctness of matched targets. -/
theorem nodup_upsert {c : Candidate} {l : List Candidate}
    (h : (l.map Candidate.matched).Nodup) :
    ((upsert c l).map Candidate.matched).Nodup := by
  rw [map_matched_upsert]
  by_cases hmem : c.matched ∈ l.map Candidate.matched
  · simpa [hmem] using h
  · rw [if_neg hmem]
    exact List.Nodup.append h (by simp) (by
      intro a ha hb
      simp only [List.mem_singleton] at hb
      exact hmem (hb ▸ ha))

/-- The Python-dict deduplication produces pairwise distinct targets. -/
theorem nodup_dictDedup (l : List Candidate) :
    ((dictDedup l).map Candidate.matched).Nodup := by
  suffices h : ∀ acc : List Candidate, (acc.map Candidate.matched).Nodup →
      ((l.foldl (fun a c => upsert c a) acc).map Candidate.matched).Nodup by
    exact h [] (by simp)
  induction l with
  | nil => intro acc hacc; simpa using hacc
  | cons c cs ih =>
    intro acc hacc
    rw [List.foldl_cons]
    exact ih _ (nodup_upsert hacc)

/-- The candidate comparison is transitive. -/
theorem candLE_trans (a b c : Candidate) (h1 : candLE a b = true)
    (h2 : candLE b c = true) : candLE a c = true := by
  simp only [candLE, decide_eq_true_eq] at *
  exact le_trans h2 h1

/-- The candidate comparison is total. -/
theorem candLE_total (a b : Candidate) : (candLE a b || candLE b a) = true := by
  simp only [candLE, Bool.or_eq_true, decide_eq_true_eq]
  exact le_total b.similarity a.similarity

/-- C7. For every text, target list and threshold, the fuzzy matcher
returns at most 5 candidates, no two of which share a matched target, in
order of non-increasing similarity. -/
theorem fuzzy_match_shape (text : Str) (targets : List Str) (threshold : ℚ) :
    (fuzzy_match text targets threshold).length ≤ 5 ∧
    ((fuzzy_match text targets threshold).map Candidate.matched).Nodup ∧
    (fuzzy_match text targets threshold).Pairwise
      (fun a b => b.similarity ≤ a.similarity) := by
  unfold fuzzy_match
  by_cases hempty : normalize_text text = []
  · simp [hempty]
  · rw [if_neg hempty]
    set cands := fuzzyCandidates text targets threshold with hc
    set sorted := (dictDedup cands).mergeSort candLE with hs
    refine ⟨List.length_take_le _ _, ?_, ?_⟩
    · have h1 : (sorted.map Candidate.matched).Nodup := by
        have hperm : (sorted.map Candidate.matched).Perm
            ((dictDedup cands).map Candidate.matched) :=
          (List.mergeSort_perm (dictDedup cands) candLE).map _
        exact (hperm.symm).nodup (nodup_dictDedup cands)
      exact ((List.take_sublist 5 _).map _).nodup h1
    · have h1 : sorted.Pairwise (fun a b => candLE a b = true) :=
        List.sorted_mergeSort candLE_trans candLE_total (dictDedup cands)
      have h2 : sorted.Pairwise (fun a b => b.similarity ≤ a.similarity) :=
        h1.imp (fun h => by simpa [candLE, decide_eq_true_eq] using h)
      exact List.Pairwise.sublist (List.take_sublist 5 sorted) h2

/-! ## Exact-substring strategy (claim C5)

Strategy 1 of `fuzzy_match` fires only when, in addition to the substring
condition, the target has at least one significant token
(`len(target_tokens) >= 1` in the source).  A target made of stopwords —
such as `"the bank"` — therefore yields no exact-substring candidate, which
refutes the claim's "regardless of whether the target's tokens are
stopwords".  The amended statement below adds the significant-token
condition and, because the final result is truncated to 5 candidates,
speaks about the scanned candidate list (`fuzzyCandidates`) of the
matcher. -/

/-- C5 (amended): whenever a target of the scanned list has at least one
significant token and its normalised form occurs verbatim inside the
normalised text, the matcher's target scan produces the candidate
`(target, 1.0)` for it. -/
theorem exact_substring_match (text target : Str) (targets : List Str)
    (threshold : ℚ) (h1 : target ∈ targets)
    (h2 : significantTokens (normalize_text target) ≠ [])
    (h3 : normalize_text target <:+: normalize_text text) :
    (⟨target, 1⟩ : Candidate) ∈ fuzzyCandidates text targets threshold := by
  apply List.mem_filterMap.2
  refine ⟨target, h1, ?_⟩
  have hne : ¬(normalize_text target = []) := by
    intro h
    apply h2
    rw [h]
    rfl
  have hlen : 1 ≤ (significantTokens (normalize_text target)).length := by
    cases h : significantTokens (normalize_text target) with
    | nil => exact absurd h h2
    | cons a as => simp
  simp only [matchTarget]
  rw [if_neg hne, if_pos ⟨h3, hlen⟩]

/-- Witness for C5 (amended), at the specification's own scenario: the
target `"cayman islands"` (significant token `cayman`) occurs inside
`"Payment to Cayman Islands Branch Ltd"` and is matched with
similarity `1.0`. -/
theorem exact_substring_match_witness :
    ("cayman islands".data ∈ ["cayman islands".data]) ∧
    significantTokens (normalize_text "cayman islands".data) ≠ [] ∧
    normalize_text "cayman islands".data <:+:
      normalize_text "Payment to Cayman Islands Branch Ltd".data ∧
    (⟨"cayman islands".data, 1⟩ : Candidate) ∈
      fuzzyCandidates "Payment to Cayman Islands Branch Ltd".data
        ["cayman islands".data] (4/5) :=
  ⟨by decide, by decide, by decide,
    exact_substring_match _ _ _ _ (by decide) (by decide) (by decide)⟩

/-- Counterexample to C5 as stated: `"the bank"` normalises to itself
(8 ≥ 3 characters), occurs verbatim inside the normalised text
`"payment the bank office"`, yet the matcher returns no candidate at all —
both of the target's tokens are stopwords, so strategy 1 is skipped and
the remaining strategies reject. -/
theorem exact_substring_stopword_counterexample :
    3 ≤ (normalize_text "the bank".data).length ∧
    normalize_text "the bank".data <:+:
      normalize_text "payment the bank office".data ∧
    fuzzy_match "payment the bank office".data ["the bank".data] (4/5) = [] := by
  refine ⟨by decide, by decide, ?_⟩
  have hnt : normalize_text "payment the bank office".data =
      "payment the bank office".data := by decide
  have htt : normalize_text "the bank".data = "the bank".data := by decide
  have hsig : significantTokens "the bank".data = [] := by decide
  have hlev : levenshtein "payment the bank office".data "the bank".data = 15 := by
    decide
  have hmax : Nat.max "payment the bank office".data.length
      "the bank".data.length = 23 := by decide
  have hmt : matchTarget "payment the bank office".data
      (significantTokens "payment the bank office".data) (4/5)
      "the bank".data = none := by
    simp only [matchTarget, htt, hsig]
    rw [if_neg (by decide)]
    rw [if_neg (by decide), if_neg (by decide), if_pos (by decide),
      if_neg (by decide)]
    rw [hlev, hmax]
    rw [if_neg (by norm_num)]
  simp only [fuzzy_match, fuzzyCandidates, hnt]
  rw [if_neg (by decide)]
  rw [List.filterMap_cons, hmt, List.filterMap_nil]
  simp [dictDedup, List.mergeSort_nil]

/-! ## The reported similarity of the token-wise strategy (claim C10) -/

/-- C10. The threshold does not lower-bound reported similarities: with the
default threshold `0.8`, the text `"caymans holdings qqqqqq"` and the
target `"caymanx holdingx zzzz"` (both ≥ 20 characters, so the token-wise
strategy applies) produce a candidate accepted on two strong tokens
(`6/7` and `7/8`) whose reported similarity is the mean
`(6/7 + 7/8 + 0)/3 = 97/168 ≈ 0.577 < 0.8`, dragged down by the weak
third token. -/
theorem tokenwise_mean_below_threshold :
    ∃ c ∈ fuzzy_match "caymans holdings qqqqqq".data
      ["caymanx holdingx zzzz".data] (4/5), c.similarity < 4/5 := by
  have hnt : normalize_text "caymans holdings qqqqqq".data =
      "caymans holdings qqqqqq".data := by decide
  have htt : normalize_text "caymanx holdingx zzzz".data =
      "caymanx holdingx zzzz".data := by decide
  have hsigText : (significantTokens "caymans holdings qqqqqq".data).dedup =
      ["caymans".data, "holdings".data, "qqqqqq".data] := by decide
  have hsigTar : significantTokens "caymanx holdingx zzzz".data =
      ["caymanx".data, "holdingx".data, "zzzz".data] := by decide
  have hbest1 : tokenBestSim "caymanx".data
      ["caymans".data, "holdings".data, "qqqqqq".data] = 6/7 := by
    simp only [tokenBestSim, List.foldl_cons, List.foldl_nil]
    have e1 : levenshtein "caymans".data "caymanx".data = 1 := by decide
    have e2 : levenshtein "holdings".data "caymanx".data = 7 := by decide
    have e3 : levenshtein "qqqqqq".data "caymanx".data = 7 := by decide
    have m1 : Nat.max "caymans".data.length "caymanx".data.length = 7 := by decide
    have m2 : Nat.max "holdings".data.length "caymanx".data.length = 8 := by decide
    have m3 : Nat.max "qqqqqq".data.length "caymanx".data.length = 7 := by decide
    rw [e1, e2, e3, m1, m2, m3]
    norm_num [max_def]
  have hbest2 : tokenBestSim "holdingx".data
      ["caymans".data, "holdings".data, "qqqqqq".data] = 7/8 := by
    simp only [tokenBestSim, List.foldl_cons, List.foldl_nil]
    have e1 : levenshtein "caymans".data "holdingx".data = 7 := by decide
    have e2 : levenshtein "holdings".data "holdingx".data = 1 := by decide
    have e3 : levenshtein "qqqqqq".data "holdingx".data = 8 := by decide
    have m1 : Nat.max "caymans".data.length "holdingx".data.length = 8 := by decide
    have m2 : Nat.max "holdings".data.length "holdingx".data.length = 8 := by decide
    have m3 : Nat.max "qqqqqq".data.length "holdingx".data.length = 8 := by decide
    rw [e1, e2, e3, m1, m2, m3]
    norm_num [max_def]
  have hbest3 : tokenBestSim "zzzz".data
      ["caymans".data, "holdings".data, "qqqqqq".data] = 0 := by
    simp only [tokenBestSim, List.foldl_cons, List.foldl_nil]
    have e1 : levenshtein "caymans".data "zzzz".data = 7 := by decide
    have e2 : levenshtein "holdings".data "zzzz".data = 8 := by decide
    have e3 : levenshtein "qqqqqq".data "zzzz".data = 6 := by decide
    have m1 : Nat.max "caymans".data.length "zzzz".data.length = 7 := by decide
    have m2 : Nat.max "holdings".data.length "zzzz".data.length = 8 := by decide
    have m3 : Nat.max "qqqqqq".data.length "zzzz".data.length = 6 := by decide
    rw [e1, e2, e3, m1, m2, m3]
    norm_num [max_def]
  have hmt : matchTarget "caymans holdings qqqqqq".data
      (significantTokens "caymans holdings qqqqqq".data) (4/5)
      "caymanx holdingx zzzz".data =
      some ⟨"caymanx holdingx zzzz".data, 97/168⟩ := by
    simp only [matchTarget, htt, hsigTar]
    rw [if_neg (by decide), if_neg (by decide), if_neg (by decide),
      if_neg (by decide), if_neg (by decide)]
    have hdd : (["caymanx".data, "holdingx".data, "zzzz".data] :
        List Str).dedup = ["caymanx".data, "holdingx".data, "zzzz".data] := by
      decide
    rw [hdd, hsigText]
    simp only [List.map_cons, List.map_nil, hbest1, hbest2, hbest3]
    have hstrong : ((([6/7, 7/8, 0] : List ℚ).filter
        (fun s => (4:ℚ)/5 ≤ s)).length) = 2 := by
      simp only [List.filter_cons, List.filter_nil, decide_eq_true_eq]
      rw [if_pos (by norm_num), if_pos (by norm_num), if_neg (by norm_num)]
      rfl
    rw [if_pos (by rw [hstrong]; norm_num)]
    rw [if_neg (by simp)]
    congr 2
    norm_num [List.sum_cons, List.sum_nil]
  refine ⟨⟨"caymanx holdingx zzzz".data, 97/168⟩, ?_, by norm_num⟩
  simp only [fuzzy_match, fuzzyCandidates, hnt]
  rw [if_neg (by decide)]
  rw [List.filterMap_cons, hmt, List.filterMap_nil]
  simp [dictDedup, upsert, List.mergeSort_singleton]

/-! ## Confidence aggregation (`analyzer.calculate_confidence`, claim C6) -/

/-- Python truthiness of an optional string (`if s:`): `None` and the
empty string are falsy. -/
def pyTruthyStr : Option String → Bool
  | none => false
  | some s => decide (s ≠ "")

/-- `analyzer.calculate_confidence`.  `dict_hits` is the list of matched
jurisdiction strings, `matched_fields` the matched field names (a Python
set, modelled as a duplicate-free list), `match_details` the similarity
values of the match dictionaries (`d.get('similarity', 0.0)`), and
`field_weights` the weight table as a total function (`dict.get(f, 0.0)`).
Additive contributions, clamped to `[0, 1]` at the end. -/
def calculate_confidence (dict_hits : List Str) (swift_country_match : Option String)
    (matched_fields : List String) (match_details : List ℚ)
    (field_weights : String → ℚ) : ℚ :=
  let c1 : ℚ := if dict_hits ≠ [] then 3/10 else 0
  let c2 : ℚ := if pyTruthyStr swift_country_match then 1/5 else 0
  let field_score := (matched_fields.map field_weights).sum
  let c3 : ℚ := min field_score 1 * (3/10)
  let c4 : ℚ := if 1 < dict_hits.length then 1/20 else 0
  let c5 : ℚ := if 2 < matched_fields.length then 1/20 else 0
  let c6 : ℚ := if match_details ≠ [] then
    (match_details.sum / (match_details.length : ℚ)) * (1/10) else 0
  min (c1 + c2 + c3 + c4 + c5 + c6) 1

/-- `analyzer.classify_scenario`: direction `incoming` with any signal is
scenario 1, `outgoing` with a signal is 2, any other direction with a
signal is 3, and no signal at all yields no scenario. -/
def classify_scenario (direction : String) (dict_hits : List Str)
    (swift_country_match : Option String) : Option Nat :=
  if direction = "incoming" ∧ (dict_hits ≠ [] ∨ pyTruthyStr swift_country_match) then
    some 1
  else if direction = "outgoing" ∧ (dict_hits ≠ [] ∨ pyTruthyStr swift_country_match) then
    some 2
  else if dict_hits ≠ [] ∨ pyTruthyStr swift_country_match then some 3
  else none

/-- The weighted-field contribution is monotone and bounded. -/
theorem field_score_nonneg {fields : List String} {w : String → ℚ}
    (hw : ∀ f, 0 ≤ w f) : 0 ≤ (fields.map w).sum := by
  apply List.sum_nonneg
  intro x hx
  rcases List.mem_map.1 hx with ⟨f, _, rfl⟩
  exact hw f

/-- A conditional bonus grows when its condition gets easier to satisfy. -/
theorem ite_bonus_mono {p q : Prop} [Decidable p] [Decidable q] {a : ℚ}
    (ha : 0 ≤ a) (hpq : p → q) :
    (if p then a else 0) ≤ (if q then a else 0) := by
  by_cases hp : p
  · rw [if_pos hp, if_pos (hpq hp)]
  · rw [if_neg hp]
    by_cases hq : q
    · rw [if_pos hq]; exact ha
    · rw [if_neg hq]

/-- C6. With all field weights in `[0, 1]` and all match-detail
similarities in `[0, 1]`, the confidence score lies in `[0, 1]` and is
monotonically non-decreasing in each positive signal: prepending a
dictionary hit, supplying a SWIFT match, or adding a matched field never
lowers it. -/
theorem calculate_confidence_bounds_mono (dict_hits : List Str)
    (swift : Option String) (fields : List String) (details : List ℚ)
    (w : String → ℚ) (hw : ∀ f, 0 ≤ w f ∧ w f ≤ 1)
    (hd : ∀ s ∈ details, 0 ≤ s ∧ s ≤ 1) :
    (0 ≤ calculate_confidence dict_hits swift fields details w ∧
      calculate_confidence dict_hits swift fields details w ≤ 1) ∧
    (∀ h : Str, calculate_confidence dict_hits swift fields details w ≤
      calculate_confidence (h :: dict_hits) swift fields details w) ∧
    (∀ m : String, calculate_confidence dict_hits none fields details w ≤
      calculate_confidence dict_hits (some m) fields details w) ∧
    (∀ f : String, calculate_confidence dict_hits swift fields details w ≤
      calculate_confidence dict_hits swift (f :: fields) details w) := by
  have hc1 : ∀ l : List Str, (0:ℚ) ≤ (if l ≠ [] then 3/10 else 0) := by
    intro l; split <;> norm_num
  have hc2 : ∀ o : Option String, (0:ℚ) ≤ (if pyTruthyStr o = true then 1/5 else 0) := by
    intro o; split <;> norm_num
  have hc3 : ∀ fl : List String, (0:ℚ) ≤ min ((fl.map w).sum) 1 * (3/10) := by
    intro fl
    apply mul_nonneg _ (by norm_num)
    exact le_min (field_score_nonneg (fun f => (hw f).1)) (by norm_num)
  have hc4 : ∀ l : List Str, (0:ℚ) ≤ (if 1 < l.length then 1/20 else 0) := by
    intro l; split <;> norm_num
  have hc5 : ∀ fl : List String, (0:ℚ) ≤ (if 2 < fl.length then 1/20 else 0) := by
    intro fl; split <;> norm_num
  have hc6 : (0:ℚ) ≤ (if details ≠ [] then
      (details.sum / (details.length : ℚ)) * (1/10) else 0) := by
    split
    · apply mul_nonneg _ (by norm_num)
      apply div_nonneg
      · exact List.sum_nonneg (fun s hs => (hd s hs).1)
      · positivity
    · exact le_rfl
  refine ⟨⟨?_, ?_⟩, ?_, ?_, ?_⟩
  · simp only [calculate_confidence]
    exact le_min
      (add_nonneg (add_nonneg (add_nonneg (add_nonneg
        (add_nonneg (hc1 dict_hits) (hc2 swift)) (hc3 fields))
        (hc4 dict_hits)) (hc5 fields)) hc6)
      (by norm_num)
  · simp only [calculate_confidence]
    exact min_le_right _ _
  · intro h
    simp only [calculate_confidence]
    apply min_le_min _ le_rfl
    have e1 : (if dict_hits ≠ [] then (3:ℚ)/10 else 0) ≤
        (if (h :: dict_hits) ≠ [] then (3:ℚ)/10 else 0) :=
      ite_bonus_mono (by norm_num) (fun _ => by simp)
    have e4 : (if 1 < dict_hits.length then (1:ℚ)/20 else 0) ≤
        (if 1 < (h :: dict_hits).length then (1:ℚ)/20 else 0) :=
      ite_bonus_mono (by norm_num) (by simp only [List.length_cons]; omega)
    exact add_le_add (add_le_add (add_le_add
      (add_le_add (add_le_add e1 le_rfl) le_rfl) e4) le_rfl) le_rfl
  · intro m
    simp only [calculate_confidence]
    apply min_le_min _ le_rfl
    have e2 : (if pyTruthyStr none = true then (1:ℚ)/5 else 0) ≤
        (if pyTruthyStr (some m) = true then (1:ℚ)/5 else 0) := by
      have : pyTruthyStr none = false := rfl
      rw [this]
      simp only [Bool.false_eq_true, if_false]
      exact hc2 (some m)
    exact add_le_add (add_le_add (add_le_add
      (add_le_add (add_le_add le_rfl e2) le_rfl) le_rfl) le_rfl) le_rfl
  · intro f
    simp only [calculate_confidence]
    apply min_le_min _ le_rfl
    have e3 : min ((fields.map w).sum) 1 * (3/10) ≤
        min (((f :: fields).map w).sum) 1 * ((3:ℚ)/10) := by
      apply mul_le_mul_of_nonneg_right _ (by norm_num)
      apply min_le_min _ le_rfl
      simp only [List.map_cons, List.sum_cons]
      have := (hw f).1
      linarith
    have e5 : (if 2 < fields.length then (1:ℚ)/20 else 0) ≤
        (if 2 < (f :: fields).length then (1:ℚ)/20 else 0) :=
      ite_bonus_mono (by norm_num) (by simp only [List.length_cons]; omega)
    exact add_le_add (add_le_add (add_le_add
      (add_le_add (add_le_add le_rfl le_rfl) e3) le_rfl) e5) le_rfl

/-- Witness for C6: all hypotheses hold at a concrete instantiation (one
dictionary hit, a SWIFT match, one weighted field, one perfect-similarity
detail) and the theorem applies. -/
theorem calculate_confidence_witness :
    (∀ f : String, 0 ≤ (fun _ : String => (1:ℚ)/10) f ∧
      (fun _ : String => (1:ℚ)/10) f ≤ 1) ∧
    (∀ s ∈ ([1] : List ℚ), 0 ≤ s ∧ s ≤ 1) ∧
    ((0 ≤ calculate_confidence ["cayman islands".data]
        (some "cayman islands") ["Город"] [1] (fun _ => 1/10) ∧
      calculate_confidence ["cayman islands".data]
        (some "cayman islands") ["Город"] [1] (fun _ => 1/10) ≤ 1) ∧
    (∀ h : Str, calculate_confidence ["cayman islands".data]
        (some "cayman islands") ["Город"] [1] (fun _ => 1/10) ≤
      calculate_confidence (h :: ["cayman islands".data])
        (some "cayman islands") ["Город"] [1] (fun _ => 1/10)) ∧
    (∀ m : String, calculate_confidence ["cayman islands".data]
        none ["Город"] [1] (fun _ => 1/10) ≤
      calculate_confidence ["cayman islands".data]
        (some m) ["Город"] [1] (fun _ => 1/10)) ∧
    (∀ f : String, calculate_confidence ["cayman islands".data]
        (some "cayman islands") ["Город"] [1] (fun _ => 1/10) ≤
      calculate_confidence ["cayman islands".data]
        (some "cayman islands") (f :: ["Город"]) [1] (fun _ => 1/10))) :=
  ⟨fun _ => by norm_num,
   fun s hs => by
     simp only [List.mem_singleton] at hs
     subst hs
     norm_num,
   calculate_confidence_bounds_mono _ _ _ _ _
     (fun _ => by norm_num)
     (fun s hs => by
       simp only [List.mem_singleton] at hs
       subst hs
       norm_num)⟩

/-! ## Configuration (`config.py`) and SWIFT extraction (claim C4) -/

/-- `config.OFFSHORE_JURISDICTIONS['en']`. -/
def OFFSHORE_EN : List String :=
  ["andorra", "anguilla", "antigua and barbuda", "aruba", "bahamas", "bahrain",
   "barbados", "belize", "bermuda", "british virgin islands", "cayman islands",
   "cook islands", "cyprus", "delaware", "dominica", "gibraltar", "grenada",
   "guernsey", "hong kong", "isle of man", "jersey", "liechtenstein", "luxembourg",
   "macao", "macau", "malta", "marshall islands", "mauritius", "monaco", "montserrat",
   "nauru", "netherlands antilles", "nevis", "nevada", "niue", "panama",
   "saint kitts and nevis", "saint lucia", "saint vincent and the grenadines",
   "samoa", "san marino", "seychelles", "singapore", "switzerland", "turks and caicos",
   "united arab emirates", "vanuatu", "virgin islands", "dubai", "kuwait", "qatar",
   "alderney", "american samoa", "bonaire", "curacao", "saba", "sint eustatius",
   "sint maarten", "sark", "tokelau", "wallis and futuna"]

/-- `config.OFFSHORE_JURISDICTIONS['ru']`. -/
def OFFSHORE_RU : List String :=
  ["андорра", "ангилья", "антигуа и барбуда", "аруба", "багамы", "бахрейн",
   "барбадос", "белиз", "бермуды", "британские виргинские острова", "каймановы острова",
   "острова кука", "кипр", "делавэр", "доминика", "гибралтар", "гренада",
   "гернси", "гонконг", "остров мэн", "джерси", "лихтенштейн", "люксембург",
   "макао", "мальта", "маршалловы острова", "маврикий", "монако", "монтсеррат",
   "науру", "нидерландские антилы", "невис", "невада", "ниуэ", "панама",
   "сент-китс и невис", "сент-люсия", "сент-винсент и гренадины",
   "самоа", "сан-марино", "сейшелы", "сингапур", "швейцария", "теркс и кайкос",
   "объединенные арабские эмираты", "вануату", "виргинские острова", "дубай", "кувейт", "катар",
   "олдерни", "американское самоа", "бонэйр", "кюрасао", "саба", "синт-эстатиус",
   "синт-мартен", "сарк", "токелау", "уоллис и футуна"]

/-- `config.SWIFT_COUNTRY_MAP`: ISO-3166 two-letter code to country name. -/
def SWIFT_COUNTRY_MAP : List (Str × String) :=
  [("AD".data, "andorra"), ("AI".data, "anguilla"),
   ("AG".data, "antigua and barbuda"), ("AW".data, "aruba"),
   ("BS".data, "bahamas"), ("BH".data, "bahrain"), ("BB".data, "barbados"),
   ("BZ".data, "belize"), ("BM".data, "bermuda"),
   ("VG".data, "british virgin islands"), ("KY".data, "cayman islands"),
   ("CK".data, "cook islands"), ("CY".data, "cyprus"), ("DM".data, "dominica"),
   ("GI".data, "gibraltar"), ("GD".data, "grenada"), ("GG".data, "guernsey"),
   ("HK".data, "hong kong"), ("IM".data, "isle of man"), ("JE".data, "jersey"),
   ("LI".data, "liechtenstein"), ("LU".data, "luxembourg"), ("MO".data, "macao"),
   ("MT".data, "malta"), ("MH".data, "marshall islands"), ("MU".data, "mauritius"),
   ("MC".data, "monaco"), ("MS".data, "montserrat"), ("NR".data, "nauru"),
   ("AN".data, "netherlands antilles"), ("NU".data, "niue"), ("PA".data, "panama"),
   ("KN".data, "saint kitts and nevis"), ("LC".data, "saint lucia"),
   ("VC".data, "saint vincent and the grenadines"), ("WS".data, "samoa"),
   ("SM".data, "san marino"), ("SC".data, "seychelles"), ("SG".data, "singapore"),
   ("CH".data, "switzerland"), ("TC".data, "turks and caicos"),
   ("AE".data, "united arab emirates"), ("VU".data, "vanuatu"),
   ("VI".data, "virgin islands"), ("KW".data, "kuwait"), ("QA".data, "qatar"),
   ("US".data, "united states")]

/-- `config.FIELD_WEIGHTS_INCOMING` as an association list. -/
def FIELD_WEIGHTS_INCOMING : List (String × ℚ) :=
  [("Плательщик", 3/10), ("Банк плательщика", 1/5),
   ("Адрес банка плательщика", 1/5), ("Страна резидентства", 1/5),
   ("Город", 1/10)]

/-- `config.FIELD_WEIGHTS_OUTGOING` as an association list. -/
def FIELD_WEIGHTS_OUTGOING : List (String × ℚ) :=
  [("Получатель", 1/5), ("Банк получателя", 1/5),
   ("Адрес банка получателя", 1/5), ("Страна резидентства", 1/5),
   ("Город", 1/10), ("Детали платежа", 1/10)]

/-- The uppercasing table of `str.upper` restricted to the modelled
alphabet (inverse of `LOWER_MAP`). -/
def UPPER_MAP : List (Char × Char) := LOWER_MAP.map (fun p => (p.2, p.1))

/-- `str.upper`, character-wise. -/
def pyUpper (c : Char) : Char := (UPPER_MAP.lookup c).getD c

/-- Python `str.isalpha` over the modelled alphabet: nonempty and all
characters alphabetic (ASCII letters or the Cyrillic block). -/
def pyIsAlpha (l : Str) : Bool :=
  decide (l ≠ []) &&
    l.all (fun c => c.isAlpha || (0x400 ≤ c.toNat && c.toNat ≤ 0x4FF))

/-- `analyzer.extract_country_from_swift`: reject non-strings, empty and
wrongly-sized codes; take characters 4–6 of the trimmed, uppercased code;
reject non-alphabetic country codes; look the code up and return the name
only when it is an offshore jurisdiction
(`country_name and country_name in OFFSHORE_JURISDICTIONS['en']`). -/
def extract_country_from_swift (swift_code : Option Str) : Option String :=
  match swift_code with
  | none => none
  | some s =>
    if s = [] then none
    else
      let swift_clean := (stripWS s).map pyUpper
      if swift_clean.length = 8 ∨ swift_clean.length = 11 then
        let country_code := (swift_clean.drop 4).take 2
        if pyIsAlpha country_code then
          match SWIFT_COUNTRY_MAP.lookup country_code with
          | some country_name =>
            if country_name ≠ "" ∧ country_name ∈ OFFSHORE_EN then
              some country_name
            else none
          | none => none
        else none
      else none

/-- C4. The SWIFT extractor returns a country name only when the trimmed,
uppercased input has length exactly 8 or 11 and its characters at offsets
4–5 are purely alphabetic, and every name it returns passes the offshore
check — so a code that maps to a name outside the offshore dictionary
yields no result, and no returned name is absent from the dictionary. -/
theorem extract_country_conditions (sc : Option Str) (name : String)
    (h : extract_country_from_swift sc = some name) :
    (∃ s, sc = some s ∧ s ≠ [] ∧
      (((stripWS s).map pyUpper).length = 8 ∨
        ((stripWS s).map pyUpper).length = 11) ∧
      pyIsAlpha ((((stripWS s).map pyUpper).drop 4).take 2) = true ∧
      SWIFT_COUNTRY_MAP.lookup ((((stripWS s).map pyUpper).drop 4).take 2) =
        some name) ∧
    name ∈ OFFSHORE_EN := by
  match sc with
  | none => simp [extract_country_from_swift] at h
  | some s =>
    simp only [extract_country_from_swift] at h
    by_cases h0 : s = []
    · rw [if_pos h0] at h; exact absurd h (by simp)
    · rw [if_neg h0] at h
      by_cases h1 : ((stripWS s).map pyUpper).length = 8 ∨
          ((stripWS s).map pyUpper).length = 11
      · rw [if_pos h1] at h
        by_cases h2 : pyIsAlpha ((((stripWS s).map pyUpper).drop 4).take 2) = true
        · rw [if_pos h2] at h
          cases h3 : SWIFT_COUNTRY_MAP.lookup
              ((((stripWS s).map pyUpper).drop 4).take 2) with
          | none => rw [h3] at h; exact absurd h (by simp)
          | some cn =>
            rw [h3] at h
            have h' : (if cn ≠ "" ∧ cn ∈ OFFSHORE_EN then some cn else none) =
                some name := h
            by_cases h4 : cn ≠ "" ∧ cn ∈ OFFSHORE_EN
            · rw [if_pos h4] at h'
              have hcn : cn = name := by
                simpa using h'
              subst hcn
              exact ⟨⟨s, rfl, h0, h1, h2, h3⟩, h4.2⟩
            · rw [if_neg h4] at h'; exact absurd h' (by simp)
        · rw [if_neg h2] at h; exact absurd h (by simp)
      · rw [if_neg h1] at h; exact absurd h (by simp)

/-- Witness for C4, at the specification's own scenario: the code
`BOTKKYKYXXX` carries country code `KY`, which maps to the offshore name
`cayman islands`; the theorem's conditions hold for it. -/
theorem extract_country_conditions_witness :
    extract_country_from_swift (some "BOTKKYKYXXX".data) =
      some "cayman islands" ∧
    "cayman islands" ∈ OFFSHORE_EN :=
  ⟨by decide,
   (extract_country_conditions (some "BOTKKYKYXXX".data) "cayman islands"
     (by decide)).2⟩

/-! ## Geocode cache (`@lru_cache(maxsize=500)` on `_geocode_bank_cached`,
claim C2)

`functools.lru_cache` keeps an access-ordered map: a hit moves the entry
to the most-recently-used position, a miss computes the value, inserts it
in the most-recently-used position and, if the cache is over capacity,
discards the least-recently-used entry.  We model the cache as a list of
key/value pairs in most-recent-first order. -/

/-- Cache key: `(norm_bank, norm_country)`, both normalised strings. -/
abbrev GeoKey := Str × Str

/-- The cached function's value: the parsed geocoding response, or the
explicit `None` marker. -/
abbrev GeoVal := Option (List String)

/-- `functools.lru_cache(maxsize=500)` — the capacity configured in
`web_research.py`. -/
def geocodeCacheMaxsize : Nat := 500

/-- Remove the (unique) entry with the given key. -/
def removeKey (k : GeoKey) : List (GeoKey × GeoVal) → List (GeoKey × GeoVal)
  | [] => []
  | p :: ps => if p.1 = k then ps else p :: removeKey k ps

/-- One memoised call through `functools.lru_cache`: on a hit the entry
moves to the most-recently-used (front) position; on a miss the computed
value is inserted in front and, when over capacity, the least-recently-used
(last) entry is discarded. -/
def lruCall (f : GeoKey → GeoVal) (maxsize : Nat) (k : GeoKey)
    (s : List (GeoKey × GeoVal)) : GeoVal × List (GeoKey × GeoVal) :=
  match s.lookup k with
  | some v => (v, (k, v) :: removeKey k s)
  | none =>
    let s' := (k, f k) :: s
    (f k, if maxsize < s'.length then s'.dropLast else s')

/-- A sequence of memoised calls, starting from a given cache state. -/
def runCalls (f : GeoKey → GeoVal) (maxsize : Nat) (ks : List GeoKey)
    (s : List (GeoKey × GeoVal)) : List (GeoKey × GeoVal) :=
  ks.foldl (fun st k => (lruCall f maxsize k st).2) s

/-- If no entry has the key, lookup misses. -/
theorem lookup_eq_none_of_keys {k : GeoKey} :
    ∀ {l : List (GeoKey × GeoVal)}, (∀ p ∈ l, p.1 ≠ k) → l.lookup k = none := by
  intro l
  induction l with
  | nil => intro _; rfl
  | cons p ps ih =>
    intro h
    rcases p with ⟨k', v'⟩
    rw [List.lookup_cons]
    have hne : k ≠ k' := fun he => h (k', v') (List.mem_cons_self _ _) he.symm
    rw [beq_eq_false_iff_ne.2 hne]
    exact ih (fun q hq => h q (List.mem_cons_of_mem _ hq))

/-- A present key is found with its value when every other entry differs. -/
theorem lookup_cons_self {k : GeoKey} {v : GeoVal}
    {l : List (GeoKey × GeoVal)} : ((k, v) :: l).lookup k = some v := by
  rw [List.lookup_cons, beq_iff_eq.2 rfl]

/-- A hit strictly shrinks the list by one entry after `removeKey`. -/
theorem removeKey_length {k : GeoKey} {v : GeoVal} :
    ∀ {l : List (GeoKey × GeoVal)}, l.lookup k = some v →
      (removeKey k l).length + 1 = l.length := by
  intro l
  induction l with
  | nil => intro h; simp [List.lookup] at h
  | cons p ps ih =>
    intro h
    rcases p with ⟨k', v'⟩
    rw [removeKey]
    by_cases hk : k' = k
    · rw [if_pos hk]; rfl
    · rw [if_neg hk]
      rw [List.lookup_cons, beq_eq_false_iff_ne.2 (fun he => hk he.symm)] at h
      simp only [List.length_cons]
      rw [← ih h]

/-- One memoised call never pushes the cache above its capacity. -/
theorem lruCall_length_le {f : GeoKey → GeoVal} {m : Nat} {k : GeoKey}
    {s : List (GeoKey × GeoVal)} (hs : s.length ≤ m) :
    ((lruCall f m k s).2).length ≤ m := by
  unfold lruCall
  cases hl : s.lookup k with
  | some v =>
    simp only [List.length_cons]
    rw [removeKey_length hl]
    exact hs
  | none =>
    simp only
    by_cases hlen : m < ((k, f k) :: s).length
    · rw [if_pos hlen, List.length_dropLast]
      simp only [List.length_cons]
      omega
    · rw [if_neg hlen]
      simp only [List.length_cons] at hlen ⊢
      omega

/-- The cache never exceeds its capacity along any call sequence. -/
theorem runCalls_length_le (f : GeoKey → GeoVal) (m : Nat) :
    ∀ (ks : List GeoKey) (s : List (GeoKey × GeoVal)), s.length ≤ m →
      (runCalls f m ks s).length ≤ m := by
  intro ks
  induction ks with
  | nil => intro s hs; exact hs
  | cons k ks' ih =>
    intro s hs
    rw [runCalls, List.foldl_cons]
    exact ih _ (lruCall_length_le hs)

/-- Inserting pairwise-distinct fresh keys with room to spare stacks them
most-recent-first. -/
theorem runCalls_all_miss (f : GeoKey → GeoVal) (m : Nat) :
    ∀ (ks : List GeoKey) (s : List (GeoKey × GeoVal)), ks.Nodup →
      (∀ k ∈ ks, s.lookup k = none) → s.length + ks.length ≤ m →
      runCalls f m ks s = (ks.map (fun k => (k, f k))).reverse ++ s := by
  intro ks
  induction ks with
  | nil => intro s _ _ _; simp [runCalls]
  | cons k ks' ih =>
    intro s hnd hmiss hlen
    rw [runCalls, List.foldl_cons]
    have hk : s.lookup k = none := hmiss k (List.mem_cons_self _ _)
    have hstep : (lruCall f m k s).2 = (k, f k) :: s := by
      unfold lruCall
      rw [hk]
      simp only
      rw [if_neg (by
        simp only [List.length_cons]
        simp only [List.length_cons] at hlen
        omega)]
    rw [show List.foldl (fun st k => (lruCall f m k st).2) ((lruCall f m k s).2) ks' =
      runCalls f m ks' ((lruCall f m k s).2) from rfl, hstep]
    rw [ih ((k, f k) :: s) (List.nodup_cons.1 hnd).2 ?_ ?_]
    · rw [List.map_cons, List.reverse_cons, List.append_assoc]
      rfl
    · intro k' hk'
      rw [List.lookup_cons]
      have hne : k' ≠ k := by
        intro he
        exact (List.nodup_cons.1 hnd).1 (he ▸ hk')
      rw [beq_eq_false_iff_ne.2 hne]
      exact hmiss k' (List.mem_cons_of_mem _ hk')
    · simp only [List.length_cons]
      simp only [List.length_cons] at hlen
      omega

/-- Pairwise-distinct cache keys for the eviction demonstration:
bank names of pairwise different lengths, empty country code. -/
def bankKey (i : Nat) : GeoKey := (List.replicate i 'a', [])

/-- A geocoder that finds nothing (the cached value is the explicit
`None` marker). -/
def geoF : GeoKey → GeoVal := fun _ => none

/-- One cache entry of the demonstration. -/
def demoEntry (i : Nat) : GeoKey × GeoVal := (bankKey i, none)

/-- Fill the cache with keys 0–499, read key 0 again, then insert key 500. -/
def lruDemoTrace : List GeoKey :=
  ((List.range 500).map bankKey) ++ [bankKey 0, bankKey 500]

/-- The cache state after the demonstration trace, starting empty. -/
def lruDemoFinal : List (GeoKey × GeoVal) :=
  runCalls geoF geocodeCacheMaxsize lruDemoTrace []

theorem bankKey_injective : Function.Injective bankKey := by
  intro i j h
  have := congrArg (fun p : GeoKey => p.1.length) h
  simpa [bankKey] using this

/-- Splitting the first element off a mapped range. -/
theorem map_range_succ_cons {α : Type} (g : Nat → α) (n : Nat) :
    (List.range (n + 1)).map g = g 0 :: (List.range n).map (fun i => g (i + 1)) := by
  rw [List.range_succ_eq_map, List.map_cons, List.map_map]
  rfl

/-- Lookup skips a prefix none of whose keys match. -/
theorem lookup_append_of_keys {k : GeoKey} :
    ∀ {l₁ l₂ : List (GeoKey × GeoVal)}, (∀ p ∈ l₁, p.1 ≠ k) →
      (l₁ ++ l₂).lookup k = l₂.lookup k := by
  intro l₁ l₂
  induction l₁ with
  | nil => intro _; rfl
  | cons p ps ih =>
    intro h
    rcases p with ⟨k', v'⟩
    rw [List.cons_append, List.lookup_cons]
    have hne : k ≠ k' := fun he => h (k', v') (List.mem_cons_self _ _) he.symm
    rw [beq_eq_false_iff_ne.2 hne]
    exact ih (fun q hq => h q (List.mem_cons_of_mem _ hq))

/-- Removing the key of the very last entry drops exactly that entry when
no earlier entry shares the key. -/
theorem removeKey_append_last {k : GeoKey} {v : GeoVal} :
    ∀ {l₁ : List (GeoKey × GeoVal)}, (∀ p ∈ l₁, p.1 ≠ k) →
      removeKey k (l₁ ++ [(k, v)]) = l₁ := by
  intro l₁
  induction l₁ with
  | nil => intro _; simp [removeKey]
  | cons p ps ih =>
    intro h
    rw [List.cons_append, removeKey,
      if_neg (h p (List.mem_cons_self _ _))]
    rw [ih (fun q hq => h q (List.mem_cons_of_mem _ hq))]

/-- Keys of the tail block of the demonstration never collide with
`bankKey j` for `j` outside their index range. -/
theorem demo_tail_keys {n off j : Nat} (hj : ∀ i < n, i + off ≠ j) :
    ∀ p ∈ (List.range n).map (fun i => demoEntry (i + off)), p.1 ≠ bankKey j := by
  intro p hp
  rcases List.mem_map.1 hp with ⟨i, hi, rfl⟩
  intro he
  exact hj i (List.mem_range.1 hi) (bankKey_injective he)

/-- Symbolic evaluation of the demonstration: after filling the cache with
keys 0–499, re-reading key 0 and inserting key 500, the cache holds key
500 in front, key 0 next (refreshed by the read), and keys 499…2 behind —
key 1, the least-recently-used entry, was evicted. -/
theorem lruDemoFinal_eq :
    lruDemoFinal = (bankKey 500, none) :: (bankKey 0, none) ::
      ((List.range 498).map (fun i => demoEntry (i + 2))).reverse := by
  have hP : ((List.range 500).map bankKey).map (fun k => (k, geoF k)) =
      (List.range 500).map demoEntry := by
    rw [List.map_map]
    rfl
  have hsplit1 : (List.range 500).map demoEntry =
      demoEntry 0 :: (List.range 499).map (fun i => demoEntry (i + 1)) :=
    map_range_succ_cons demoEntry 499
  have hsplit2 : (List.range 499).map (fun i => demoEntry (i + 1)) =
      demoEntry 1 :: (List.range 498).map (fun i => demoEntry (i + 2)) :=
    map_range_succ_cons (fun i => demoEntry (i + 1)) 498
  have hT1 : ∀ p ∈ (List.range 499).map (fun i => demoEntry (i + 1)),
      p.1 ≠ bankKey 0 := demo_tail_keys (by omega)
  have hT500 : ∀ p ∈ (List.range 499).map (fun i => demoEntry (i + 1)),
      p.1 ≠ bankKey 500 := demo_tail_keys (by omega)
  have hS0 : runCalls geoF geocodeCacheMaxsize ((List.range 500).map bankKey) [] =
      ((List.range 499).map (fun i => demoEntry (i + 1))).reverse ++
        [demoEntry 0] := by
    rw [runCalls_all_miss geoF geocodeCacheMaxsize ((List.range 500).map bankKey) []
      (List.Nodup.map bankKey_injective (List.nodup_range 500))
      (fun _ _ => rfl)
      (by simp [geocodeCacheMaxsize])]
    rw [hP, hsplit1, List.reverse_cons, List.append_nil]
  have hlen499 : ((List.range 499).map (fun i => demoEntry (i + 1))).length = 499 := by
    simp
  unfold lruDemoFinal lruDemoTrace runCalls
  rw [List.foldl_append]
  rw [show List.foldl (fun st k => (lruCall geoF geocodeCacheMaxsize k st).2) []
    ((List.range 500).map bankKey) =
    runCalls geoF geocodeCacheMaxsize ((List.range 500).map bankKey) [] from rfl]
  rw [hS0, List.foldl_cons, List.foldl_cons, List.foldl_nil]
  have hlook0 :
      (((List.range 499).map (fun i => demoEntry (i + 1))).reverse ++
        [demoEntry 0]).lookup (bankKey 0) = some none := by
    rw [lookup_append_of_keys
      (fun p hp => hT1 p (List.mem_reverse.1 hp))]
    exact lookup_cons_self
  have hstate1 : (lruCall geoF geocodeCacheMaxsize (bankKey 0)
      (((List.range 499).map (fun i => demoEntry (i + 1))).reverse ++
        [demoEntry 0])).2 =
      (bankKey 0, none) ::
        ((List.range 499).map (fun i => demoEntry (i + 1))).reverse := by
    unfold lruCall
    rw [hlook0]
    simp only
    rw [show demoEntry 0 = (bankKey 0, (none : GeoVal)) from rfl]
    rw [removeKey_append_last (fun p hp => hT1 p (List.mem_reverse.1 hp))]
  rw [hstate1]
  have hlook500 : ((bankKey 0, (none : GeoVal)) ::
      ((List.range 499).map (fun i => demoEntry (i + 1))).reverse).lookup
        (bankKey 500) = none := by
    apply lookup_eq_none_of_keys
    intro p hp
    rcases List.mem_cons.1 hp with h1 | h1
    · subst h1
      intro he
      exact absurd (bankKey_injective he) (by omega)
    · exact hT500 p (List.mem_reverse.1 h1)
  unfold lruCall
  rw [hlook500]
  simp only
  rw [if_pos (by
    simp only [List.length_cons, List.length_reverse, hlen499, geocodeCacheMaxsize]
    omega)]
  rw [hsplit2, List.reverse_cons]
  rw [show (bankKey 500, geoF (bankKey 500)) :: (bankKey 0, (none : GeoVal)) ::
      (((List.range 498).map (fun i => demoEntry (i + 2))).reverse ++ [demoEntry 1]) =
    ((bankKey 500, (none : GeoVal)) :: (bankKey 0, none) ::
      ((List.range 498).map (fun i => demoEntry (i + 2))).reverse) ++ [demoEntry 1]
    from rfl]
  rw [List.dropLast_concat]

/-- Counterexample to C2 as stated: in the demonstration trace the
earliest-inserted entry still present at the point of the overflowing
insertion is key 0 (inserted first, never evicted before), so FIFO
eviction would remove it; the code instead keeps key 0 — whose recency the
intervening read refreshed — and evicts key 1.  The cache also still holds
exactly 500 entries. -/
theorem geocode_cache_fifo_counterexample :
    lruDemoFinal.lookup (bankKey 0) = some none ∧
    lruDemoFinal.lookup (bankKey 1) = none ∧
    lruDemoFinal.length = geocodeCacheMaxsize := by
  rw [lruDemoFinal_eq]
  refine ⟨?_, ?_, ?_⟩
  · rw [List.lookup_cons]
    rw [beq_eq_false_iff_ne.2 (fun he => absurd (bankKey_injective he) (by omega))]
    exact lookup_cons_self
  · apply lookup_eq_none_of_keys
    intro p hp
    rcases List.mem_cons.1 hp with h1 | h1
    · subst h1
      intro he
      exact absurd (bankKey_injective he) (by omega)
    · rcases List.mem_cons.1 h1 with h2 | h2
      · subst h2
        intro he
        exact absurd (bankKey_injective he) (by omega)
      · exact demo_tail_keys (by omega) p (List.mem_reverse.1 h2)
  · simp [geocodeCacheMaxsize]

/-- C2 (amended). The geocode cache never exceeds its configured capacity
of 500 entries, and eviction is least-recently-used, not insertion-order:
a hit moves the entry to the most-recently-used position (so a read does
change which entry is evicted next), and an insertion into a full cache
discards the least-recently-used entry. -/
theorem geocode_cache_capacity_and_lru :
    (∀ (f : GeoKey → GeoVal) (ks : List GeoKey),
      (runCalls f geocodeCacheMaxsize ks []).length ≤ geocodeCacheMaxsize) ∧
    (∀ (f : GeoKey → GeoVal) (k : GeoKey) (s : List (GeoKey × GeoVal)) (v : GeoVal),
      s.lookup k = some v →
      lruCall f geocodeCacheMaxsize k s = (v, (k, v) :: removeKey k s)) ∧
    (∀ (f : GeoKey → GeoVal) (k : GeoKey) (s : List (GeoKey × GeoVal)),
      s.lookup k = none → s.length = geocodeCacheMaxsize →
      (lruCall f geocodeCacheMaxsize k s).2 = ((k, f k) :: s).dropLast) := by
  refine ⟨?_, ?_, ?_⟩
  · intro f ks
    exact runCalls_length_le f geocodeCacheMaxsize ks [] (by simp)
  · intro f k s v h
    unfold lruCall
    rw [h]
  · intro f k s h hlen
    unfold lruCall
    rw [h]
    simp only
    rw [if_pos (by simp [List.length_cons, hlen])]

/-- Witness for C2 (amended): a hit on a one-entry cache refreshes that
entry, and inserting a fresh key into a full 500-entry cache drops the
last entry. -/
theorem geocode_cache_capacity_and_lru_witness :
    ([(bankKey 0, (none : GeoVal))].lookup (bankKey 0) = some none) ∧
    (((List.range 500).map demoEntry).lookup (bankKey 500) = none) ∧
    (((List.range 500).map demoEntry).length = geocodeCacheMaxsize) ∧
    lruCall geoF geocodeCacheMaxsize (bankKey 0) [(bankKey 0, none)] =
      (none, (bankKey 0, none) :: removeKey (bankKey 0) [(bankKey 0, none)]) ∧
    (lruCall geoF geocodeCacheMaxsize (bankKey 500)
        ((List.range 500).map demoEntry)).2 =
      ((bankKey 500, geoF (bankKey 500)) :: (List.range 500).map demoEntry).dropLast := by
  have h1 : [(bankKey 0, (none : GeoVal))].lookup (bankKey 0) = some none :=
    lookup_cons_self
  have h2 : ((List.range 500).map demoEntry).lookup (bankKey 500) = none := by
    apply lookup_eq_none_of_keys
    intro p hp
    rcases List.mem_map.1 hp with ⟨i, hi, rfl⟩
    intro he
    exact absurd (bankKey_injective he) (by
      have := List.mem_range.1 hi
      omega)
  have h3 : ((List.range 500).map demoEntry).length = geocodeCacheMaxsize := by
    simp [geocodeCacheMaxsize]
  exact ⟨h1, h2, h3,
    geocode_cache_capacity_and_lru.2.1 geoF (bankKey 0) _ none h1,
    geocode_cache_capacity_and_lru.2.2 geoF (bankKey 500) _ h2 h3⟩

/-! ## Retry behaviour of the geocoder (claim C3)

`geocode_bank` is decorated with
`@retry(stop=stop_after_attempt(2), wait=wait_exponential(multiplier=1, min=2, max=10))`,
but the function it calls, `_geocode_bank_cached`, wraps the network call
in `try: ... except requests.RequestException: return None` — transient
network failures are swallowed *inside* and never propagate to the retry
wrapper, so the wrapper only ever sees a normal return.  We model the
network as an oracle mapping the attempt number to the outcome of one
`requests.get`. -/

/-- Outcome of one network attempt: a `requests.RequestException`
(timeout/network error), or the parsed response list. -/
abbrev NetOutcome := Except Unit (List String)

/-- The body of `_geocode_bank_cached` from the `rate_limit` call onward:
performs exactly one network attempt and catches `RequestException`,
returning the explicit `None` marker (which `lru_cache` then stores). -/
def geocode_bank_cached_attempt (net : Nat → NetOutcome) (attempt : Nat) :
    Option (List String) :=
  match net attempt with
  | .ok result => some result
  | .error _ => none

/-- `tenacity.retry(stop=stop_after_attempt(maxAttempts))`: run the body;
re-run it on an exception until the attempt budget is exhausted.  Returns
the final outcome and the number of attempts actually made. -/
def retryGo {E A : Type} (body : Nat → Except E A) :
    Nat → Nat → Except E A × Nat
  | 0, attempt => (body attempt, attempt)
  | remaining + 1, attempt =>
    match body attempt with
    | .ok a => (.ok a, attempt)
    | .error e =>
      if remaining = 0 then (.error e, attempt)
      else retryGo body remaining (attempt + 1)

/-- The retry wrapper, starting at attempt 1. -/
def retryTenacity {E A : Type} (maxAttempts : Nat) (body : Nat → Except E A) :
    Except E A × Nat :=
  retryGo body maxAttempts 1

/-- The `wait_exponential(multiplier=1, min=2, max=10)` backoff schedule
(seconds before retry number `n + 1`). -/
def tenacityBackoff (n : Nat) : ℚ := min 10 (max 2 (2 ^ n))

/-- `geocode_bank` as decorated: the retry wrapper around a body that
never raises, because `_geocode_bank_cached` catches the network
exceptions itself. -/
def geocode_bank_net (net : Nat → NetOutcome) :
    Except Unit (Option (List String)) × Nat :=
  retryTenacity 2 (fun attempt => Except.ok (geocode_bank_cached_attempt net attempt))

/-- C3 (amended). For every network behaviour, the decorated geocoder
performs exactly one attempt: the inner `except requests.RequestException`
swallows transient failures, so the retry policy never fires; a failing
first attempt immediately yields the explicit `None` marker, which a
cache miss stores for the key; and no failure is ever raised to the
caller (the outcome is always a normal return). -/
theorem geocode_bank_single_attempt (net : Nat → NetOutcome) :
    geocode_bank_net net = (Except.ok (geocode_bank_cached_attempt net 1), 1) ∧
    (∀ e, net 1 = Except.error e → geocode_bank_cached_attempt net 1 = none) ∧
    (∀ (k : GeoKey) (s : List (GeoKey × GeoVal)), s.lookup k = none →
      ((lruCall (fun _ => geocode_bank_cached_attempt net 1)
        geocodeCacheMaxsize k s).2).lookup k =
        some (geocode_bank_cached_attempt net 1)) := by
  refine ⟨rfl, ?_, ?_⟩
  · intro e h
    simp [geocode_bank_cached_attempt, h]
  · intro k s hmiss
    unfold lruCall
    rw [hmiss]
    simp only
    by_cases hlen : geocodeCacheMaxsize <
        ((k, geocode_bank_cached_attempt net 1) :: s).length
    · rw [if_pos hlen]
      cases s with
      | nil => simp [geocodeCacheMaxsize, List.length_cons] at hlen
      | cons p ps =>
        rw [List.dropLast_cons₂]
        exact lookup_cons_self
    · rw [if_neg hlen]
      exact lookup_cons_self

/-- A network that fails on the first attempt and would succeed on the
second. -/
def netFail1 : Nat → NetOutcome :=
  fun n => if n = 1 then Except.error () else Except.ok ["Cayman Islands, KY"]

/-- Counterexample to C3 as stated: on a transient failure the code makes
exactly 1 attempt, not 2 — the second attempt would have succeeded, yet
the result is the `None` marker, produced and cached right after the
first failure. -/
theorem geocode_no_retry_counterexample :
    (geocode_bank_net netFail1).2 = 1 ∧
    (geocode_bank_net netFail1).1 = Except.ok none ∧
    netFail1 2 = Except.ok ["Cayman Islands, KY"] ∧
    geocode_bank_cached_attempt netFail1 1 = none ∧
    ¬(geocode_bank_net netFail1).2 = 2 := by
  refine ⟨rfl, rfl, rfl, rfl, by decide⟩

/-- Witness for C3 (amended) at the concrete failing network: the
hypotheses of the per-failure conjuncts hold and the theorem applies. -/
theorem geocode_bank_single_attempt_witness :
    (netFail1 1 = Except.error ()) ∧
    (([] : List (GeoKey × GeoVal)).lookup (bankKey 0) = none) ∧
    geocode_bank_cached_attempt netFail1 1 = none ∧
    ((lruCall (fun _ => geocode_bank_cached_attempt netFail1 1)
        geocodeCacheMaxsize (bankKey 0) []).2).lookup (bankKey 0) =
      some (geocode_bank_cached_attempt netFail1 1) :=
  ⟨rfl, rfl,
   (geocode_bank_single_attempt netFail1).2.1 () rfl,
   (geocode_bank_single_attempt netFail1).2.2 (bankKey 0) [] rfl⟩

/-! ## Rate limiter (`web_research.rate_limit`, claim C9)

The whole body of `rate_limit` runs under `_rate_limit_lock`, so
concurrent callers are serialised: the trace of limiter executions is a
sequence.  One execution reads `time.time()` (`now`), sleeps
`min_interval - (now - last)` when the elapsed time is short, and stores a
fresh `time.time()` reading as the new last-dispatch timestamp.  The
`overshoot` argument models the slack between the ideal and the actual
wake-up/second reading (sleeps may only be longer than requested and the
clock only moves forward), and the dispatch is identified with the stored
timestamp.  `_last_request_time` starts at `0.0` for `"geocode"`. -/

/-- One serialised execution of `rate_limit` for a service whose
last-dispatch timestamp is `last`: returns the new stored timestamp. -/
def rateLimitStep (minInterval last now overshoot : ℚ) : ℚ :=
  if now - last < minInterval then last + minInterval + overshoot
  else now + overshoot

/-- The stored dispatch timestamps along a serialised trace of limiter
executions, each given by its entry clock reading and overshoot. -/
def dispatchTimes (minInterval : ℚ) : ℚ → List (ℚ × ℚ) → List ℚ
  | _, [] => []
  | last, (now, overshoot) :: rest =>
    rateLimitStep minInterval last now overshoot ::
      dispatchTimes minInterval (rateLimitStep minInterval last now overshoot) rest

/-- A limiter execution never dispatches earlier than one interval after
the previous dispatch. -/
theorem rateLimitStep_lower {minInterval last now overshoot : ℚ}
    (hov : 0 ≤ overshoot) :
    last + minInterval ≤ rateLimitStep minInterval last now overshoot := by
  unfold rateLimitStep
  by_cases h : now - last < minInterval
  · rw [if_pos h]; linarith
  · rw [if_neg h]
    push_neg at h
    linarith

/-- C9. For the `"geocode"` service, any two consecutive dispatched
requests of a serialised trace are at least the configured minimum
interval (default `1.0` second) apart, for every trace of concurrent
callers with non-negative sleep/clock overshoots; the last-dispatch
timestamp is read and updated only inside the critical section, which the
sequential trace models. -/
theorem rate_limit_min_spacing (minInterval : ℚ) (arrivals : List (ℚ × ℚ))
    (h : ∀ p ∈ arrivals, 0 ≤ p.2) :
    ∀ last, List.Chain' (fun a b => a + minInterval ≤ b)
      (dispatchTimes minInterval last arrivals) := by
  induction arrivals with
  | nil => intro last; simp [dispatchTimes]
  | cons p rest ih =>
    intro last
    rcases p with ⟨now, overshoot⟩
    rw [dispatchTimes]
    refine List.chain'_cons'.2 ⟨?_, ih (fun q hq => h q (List.mem_cons_of_mem _ hq)) _⟩
    intro y hy
    cases rest with
    | nil => simp [dispatchTimes] at hy
    | cons q rest' =>
      rcases q with ⟨now', overshoot'⟩
      simp only [dispatchTimes, List.head?_cons, Option.mem_def,
        Option.some_inj] at hy
      subst hy
      exact rateLimitStep_lower
        (h (now', overshoot') (List.mem_cons_of_mem _ (List.mem_cons_self _ _)))

/-- Witness for C9: three callers arriving at times 0, 1/2 and 5 with
exact sleeps are dispatched at least 1 second apart. -/
theorem rate_limit_min_spacing_witness :
    (∀ p ∈ ([(0, 0), (1/2, 0), (5, 0)] : List (ℚ × ℚ)), 0 ≤ p.2) ∧
    List.Chain' (fun a b => a + 1 ≤ b)
      (dispatchTimes 1 0 [(0, 0), (1/2, 0), (5, 0)]) := by
  have h : ∀ p ∈ ([(0, 0), (1/2, 0), (5, 0)] : List (ℚ × ℚ)), 0 ≤ p.2 := by
    intro p hp
    rcases List.mem_cons.1 hp with h1 | h1
    · rw [h1]
    · rcases List.mem_cons.1 h1 with h2 | h2
      · rw [h2]
      · rcases List.mem_cons.1 h2 with h3 | h3
        · rw [h3]
        · simp at h3
  exact ⟨h, rate_limit_min_spacing 1 _ h 0⟩

/-! ## The per-row pipeline (`analyzer.analyze_transaction`, claim C1)

`analyze_transaction` computes `run_preliminary_analysis(row)` and then
calls `parallel_web_research(...)` — the Geocoding Resolver —
*unconditionally*: there is no test of the preliminary confidence between
the two calls (the legacy module `offshore_detector.py` guards the same
call with `if preliminary_analysis['confidence'] > 0.2:`, but
`analyzer.py` does not).  The second component of the result counts the
geocoding invocations performed for the row. -/

/-- A transaction row: its direction and its named fields; `none` stands
for a missing, non-string or NaN field (`field in row and pd.notna(...)`
fails). -/
structure Row where
  direction : String
  get : String → Option Str

/-- Python `a or b` on optional strings: the first operand unless it is
falsy (`None` or empty). -/
def pyOr (a b : Option Str) : Option Str :=
  match a with
  | some s => if s ≠ [] then some s else b
  | none => b

/-- The weight table selected by
`FIELD_WEIGHTS_INCOMING if row['direction'] == 'incoming' else FIELD_WEIGHTS_OUTGOING`. -/
def FIELD_WEIGHTS (direction : String) : List (String × ℚ) :=
  if direction = "incoming" then FIELD_WEIGHTS_INCOMING else FIELD_WEIGHTS_OUTGOING

/-- `field_weights.get(field, 0.0)` as a total function. -/
def weightsFun (tbl : List (String × ℚ)) : String → ℚ :=
  fun f => (tbl.lookup f).getD 0

/-- `matched_fields.add(field)` (Python set insertion). -/
def insertIfAbsent (f : String) (l : List String) : List String :=
  if f ∈ l then l else l ++ [f]

/-- The result dictionary of `run_preliminary_analysis`. -/
structure Prelim where
  dict_hits : List Str
  swift_country_match : Option String
  confidence : ℚ
  scenario : Option Nat
  matched_fields : List String
  match_details : List ℚ

/-- The per-language matcher pass of the field loop: on a non-empty match
list, extend the dictionary hits and match details and record the field. -/
def langPass (field : String) (text : Str) (targets : List String)
    (acc : List Str × List String × List ℚ) :
    List Str × List String × List ℚ :=
  let found := fuzzy_match text (targets.map String.data) (4/5)
  if found ≠ [] then
    (acc.1 ++ found.map Candidate.matched,
     insertIfAbsent field acc.2.1,
     acc.2.2 ++ found.map Candidate.similarity)
  else acc

/-- `analyzer.run_preliminary_analysis`: scan every weighted field with
the fuzzy matcher over both jurisdiction lists (`en` then `ru`), extract
the SWIFT country, aggregate the confidence and classify the scenario. -/
def run_preliminary_analysis (row : Row) : Prelim :=
  let field_weights := FIELD_WEIGHTS row.direction
  let scan := field_weights.foldl
    (fun acc fw =>
      match row.get fw.1 with
      | none => acc
      | some text => langPass fw.1 text OFFSHORE_RU
          (langPass fw.1 text OFFSHORE_EN acc))
    ([], [], [])
  let swift_code := pyOr (row.get "SWIFT Банка плательщика")
    (row.get "SWIFT Банка получателя")
  let swift_country_match := extract_country_from_swift swift_code
  { dict_hits := scan.1.dedup
    swift_country_match := swift_country_match
    confidence := calculate_confidence scan.1 swift_country_match scan.2.1
      scan.2.2 (weightsFun field_weights)
    scenario := classify_scenario row.direction scan.1 swift_country_match
    matched_fields := scan.2.1
    match_details := scan.2.2 }

/-- The bundle produced for one row: the preliminary signals plus the
geocoding outcome attached as `web_results`. -/
structure Bundle where
  prelim : Prelim
  web_results : Option (List String)

/-- `analyzer.analyze_transaction`, with the external
`parallel_web_research(counterparty, bank, swift_code)` call abstracted as
the `geocode` oracle; the second component counts geocoding invocations.
The call is made for every row, with no confidence test. -/
def analyze_transaction
    (geocode : Option Str → Option Str → Option Str → Option (List String))
    (row : Row) : Bundle × Nat :=
  let prelim := run_preliminary_analysis row
  let swift_code := pyOr (row.get "SWIFT Банка плательщика")
    (row.get "SWIFT Банка получателя")
  let counterparty := pyOr (row.get "Плательщик") (row.get "Получатель")
  let bank := pyOr (row.get "Банк плательщика") (row.get "Банк получателя")
  ({ prelim := prelim, web_results := geocode counterparty bank swift_code }, 1)

/-- C1 (amended). The pipeline invokes the Geocoding Resolver exactly once
for *every* record, regardless of the computed confidence, and the bundle
always carries the resolver's outcome. -/
theorem analyze_transaction_always_geocodes
    (geocode : Option Str → Option Str → Option Str → Option (List String))
    (row : Row) :
    (analyze_transaction geocode row).2 = 1 ∧
    (analyze_transaction geocode row).1.web_results =
      geocode (pyOr (row.get "Плательщик") (row.get "Получатель"))
        (pyOr (row.get "Банк плательщика") (row.get "Банк получателя"))
        (pyOr (row.get "SWIFT Банка плательщика")
          (row.get "SWIFT Банка получателя")) ∧
    (analyze_transaction geocode row).1.prelim = run_preliminary_analysis row :=
  ⟨rfl, rfl, rfl⟩

/-- A record with no usable fields at all. -/
def emptyRow : Row := { direction := "incoming", get := fun _ => none }

/-- Counterexample to C1 as stated: this record's preliminary confidence
is `0`, which does not exceed any positive threshold (the legacy pipeline
used `0.2`), yet the geocoding lookup is still performed and its outcome
lands in the bundle. -/
theorem unconditional_geocode_counterexample :
    (run_preliminary_analysis emptyRow).confidence = 0 ∧
    ¬(1/5 < (run_preliminary_analysis emptyRow).confidence) ∧
    (analyze_transaction (fun _ _ _ => some ["geocoded anyway"]) emptyRow).2 = 1 ∧
    (analyze_transaction (fun _ _ _ => some ["geocoded anyway"])
      emptyRow).1.web_results = some ["geocoded anyway"] := by
  have hconf : (run_preliminary_analysis emptyRow).confidence =
      calculate_confidence [] none [] [] (weightsFun FIELD_WEIGHTS_INCOMING) := rfl
  have hzero : calculate_confidence [] none [] []
      (weightsFun FIELD_WEIGHTS_INCOMING) = 0 := by
    simp only [calculate_confidence, pyTruthyStr, List.map_nil, List.sum_nil,
      List.length_nil]
    norm_num [min_def]
  refine ⟨hconf.trans hzero, ?_, rfl, rfl⟩
  rw [hconf.trans hzero]
  norm_num

end OffshoreDetector
